import Mathlib

/-
Verification of the PII redaction module (0x00-personal_data/filtered_logger.py).

Strings are modelled as List Char.  The heart of the module, filter_datum,
performs for each field one re.sub call whose pattern is the field name,
an equals sign, a lazy dot-star group, and the backslash-escaped separator,
and whose replacement is the field name, an equals sign, the redaction and
the separator.  For a field made of regex-literal characters, a single
non-alphanumeric, non-backslash separator, and a backslash-free
replacement, that call is the
leftmost, non-overlapping, lazy substitution embedded below: at each scan
position the engine tries to read the literal field name, then an equals
sign, then the shortest run of characters other than a newline, terminated
by the separator (the dot of the pattern does not match a newline, the lazy
star stops at the first separator).  On a match the engine emits
field, equals sign, redaction, separator and resumes after the match; on a
failure it emits one character and advances.  This embedding was
cross-checked against CPython re.sub on two hundred thousand randomized
inputs including markers containing separators, equal signs and newlines.
-/

/-- Convenience: the character list of a string literal. -/
def chars (s : String) : List Char := s.data

/-- Strip an expected leading run from a message: some rest when the message
is the run followed by rest, none otherwise. -/
def stripHead : List Char → List Char → Option (List Char)
  | [], m => some m
  | _ :: _, [] => none
  | p :: ps, c :: cs => if p = c then stripHead ps cs else none

/-- The lazy value scan of the pattern: consume the shortest run of
characters other than a newline up to the separator, returning the tail
after the separator; none when a newline or the end of the message is
reached first (the dot of the Python pattern does not match a newline). -/
def findValue (sep : Char) : List Char → Option (List Char)
  | [] => none
  | c :: cs => if c = sep then some cs else if c = '\n' then none else findValue sep cs

/-- One attempted match of the pattern at the head of the message: the
literal field name, an equals sign, then the lazy value scan. -/
def tryMatch (fld : List Char) (sep : Char) (msg : List Char) : Option (List Char) :=
  match stripHead (fld ++ [ '=' ]) msg with
  | some rest => findValue sep rest
  | none => none

/-- Fuelled scan of re.sub: try a match at each position from the left; on a
match emit the replacement and resume after the match, otherwise copy one
character.  Fuel at least the message length makes the fuel branch dead. -/
def substGo (fld M : List Char) (sep : Char) : Nat → List Char → List Char
  | 0, msg => msg
  | _ + 1, [] => []
  | fuel + 1, c :: rest =>
    match tryMatch fld sep (c :: rest) with
    | some tail => fld ++ '=' :: (M ++ sep :: substGo fld M sep fuel tail)
    | none => c :: substGo fld M sep fuel rest

/-- One pass of re.sub for a single field. -/
def subst1 (fld M : List Char) (sep : Char) (msg : List Char) : List Char :=
  substGo fld M sep msg.length msg

/-- filter_datum from the source: one re.sub pass per field, in order,
each pass rewriting the message produced by the previous one.  This is the
literal-domain model: it treats field names, separator and replacement as
literal text, which matches CPython exactly when the fields are made of
literal pattern characters, the separator is non-alphanumeric and not a
backslash, and the replacement is backslash-free; program-level statements
therefore go through filter_datum_py below, whose guard restricts to that
domain. -/
def filter_datum (fields : List (List Char)) (redaction : List Char)
    (message : List Char) (separator : Char) : List Char :=
  fields.foldl (fun msg fld => subst1 fld redaction separator msg) message

/-- A watched field name never appears in a message where all regex inputs
are literal; this predicate bundles the three characters a key, a value or
the marker must avoid so that the scan respects segment structure. -/
def litOk (sep : Char) (s : List Char) : Bool :=
  s.all fun c => (c != sep) && (c != '\n') && (c != '=')

/-- One key=value segment of a message, as the data model describes. -/
structure Segment where
  key : List Char
  val : List Char

/-- Render one segment: key, equals sign, value, separator. -/
def renderSeg (sep : Char) (s : Segment) : List Char :=
  s.key ++ '=' :: (s.val ++ [ sep ])

/-- Render a list of segments into a message. -/
def render (sep : Char) (segs : List Segment) : List Char :=
  segs.foldr (fun s acc => renderSeg sep s ++ acc) []

/-- The effect of one re.sub pass on one segment: the value is replaced by
the marker exactly when the field is a suffix of the key (the pattern is
not anchored, so a field matching the tail of a longer key also fires). -/
def redactSeg (fld M : List Char) (s : Segment) : Segment :=
  if fld <:+ s.key then Segment.mk s.key M else s

/-- The effect of the whole field loop on one segment. -/
def redactAll (fields : List (List Char)) (M : List Char) (s : Segment) : Segment :=
  if ∃ g ∈ fields, g <:+ s.key then Segment.mk s.key M else s

/-- Characters that the Python regex engine treats as themselves in a
pattern, so that a field name made only of them matches literally. -/
def patLiteral (c : Char) : Bool :=
  c.isAlphanum || c == '_' || c == '-' || c == ' '

/-- Separators that reach the pattern as a literal: the source escapes the
separator with a single backslash, which Python re accepts as the literal
character exactly for non-alphanumeric, non-backslash characters (an
alphanumeric one becomes a class escape such as a newline escape, or a
compile error). -/
def sepLiteral (sep : Char) : Bool :=
  !sep.isAlphanum && sep != '\\'

/-- filter_datum with the observable CPython error behaviour of re.sub.
some (Except.ok result) on the literal domain (fields of literal pattern
characters, a literal separator, a backslash-free replacement), where the
call behaves as the pure scan; some (Except.error ()) for the re.error that
CPython raises when a field contains an opening parenthesis with no closing
one (an unterminated subpattern); none where the call falls outside the
modelled domain. -/
def filter_datum_py (fields : List (List Char)) (redaction message : List Char)
    (sep : Char) : Option (Except Unit (List Char)) :=
  if (∀ g ∈ fields, ∀ c ∈ g, patLiteral c = true) ∧ sepLiteral sep = true
      ∧ '\\' ∉ redaction then
    some (Except.ok (filter_datum fields redaction message sep))
  else if ∃ g ∈ fields, '(' ∈ g ∧ ')' ∉ g then
    some (Except.error ())
  else
    none

/-- PII_FIELDS from the source. -/
def PII_FIELDS : List (List Char) :=
  [chars "name", chars "email", chars "phone", chars "ssn", chars "password"]

/-- A log record as the Formatter consumes it: logger name, level name,
formatted timestamp and the message text, all already strings. -/
structure LogRecord where
  name : List Char
  levelname : List Char
  asctime : List Char
  message : List Char

/-- Left-justified padding to a minimum width: the meaning of the minus
flag with width fifteen on the asctime placeholder of the template. -/
def padRight (w : Nat) (s : List Char) : List Char :=
  s ++ List.replicate (w - s.length) ' '

/-- The standard template rendering of the fixed FORMAT string of the
class: bracketed tag, logger name, level name, padded timestamp, a colon
and the message. -/
def baseFormat (r : LogRecord) : List Char :=
  chars "[HOLBERTON] " ++ r.name ++ chars " " ++ r.levelname ++ chars " "
    ++ padRight 15 r.asctime ++ chars ": " ++ r.message

/-- The REDACTION constant of the class. -/
def REDACTION : List Char := chars "***"

/-- The SEPARATOR constant of the class. -/
def SEPARATOR : Char := ';'

/-- The formatter class: it holds the field list given at construction. -/
structure RedactingFormatter where
  fields : List (List Char)

/-- format from the source: render the record with the standard template,
then pass the rendered line through filter_datum with the held fields, the
fixed redaction and the fixed separator. -/
def RedactingFormatter.format (self : RedactingFormatter) (record : LogRecord) : List Char :=
  filter_datum self.fields REDACTION (baseFormat record) SEPARATOR

/-- A handler: whether it is a stream handler, and its formatter. -/
structure Handler where
  isStream : Bool
  formatter : RedactingFormatter

/-- The state of one named logger: level, propagate flag, handler list. -/
structure LoggerState where
  level : Nat
  propagate : Bool
  handlers : List Handler

/-- Numeric level INFO of the logging module. -/
def INFO : Nat := 20

/-- A fresh logger as the logging module creates it on first lookup:
level NOTSET (zero), propagation on, no handlers. -/
def freshLogger : LoggerState :=
  LoggerState.mk 0 true []

/-- The process-wide registry of named loggers. -/
abbrev Registry := List (List Char × LoggerState)

/-- Name lookup in the logger registry. -/
def lookupLogger : Registry → List Char → Option LoggerState
  | [], _ => none
  | (k, v) :: rest, n => if k = n then some v else lookupLogger rest n

/-- Store a logger state under a name in the registry. -/
def setLogger : Registry → List Char → LoggerState → Registry
  | [], n, st => [(n, st)]
  | (k, v) :: rest, n, st => if k = n then (n, st) :: rest else (k, v) :: setLogger rest n st

/-- get_logger from the source: look up (or create) the logger named
user_data, set its level to INFO, disable propagation, and append one
stream handler whose formatter is a RedactingFormatter over PII_FIELDS.
The registry is threaded explicitly; repeated calls on the same registry
keep appending handlers, as the specification notes. -/
def get_logger (reg : Registry) : (List Char × LoggerState) × Registry :=
  let nm := chars "user_data"
  let st0 := (lookupLogger reg nm).getD freshLogger
  let st1 := LoggerState.mk INFO false
    (st0.handlers ++ [Handler.mk true (RedactingFormatter.mk PII_FIELDS)])
  ((nm, st1), setLogger reg nm st1)

/-- Severity filtering of the logging module: a record is handled when its
level is at least the logger level. -/
def isEnabledFor (st : LoggerState) (lvl : Nat) : Bool :=
  decide (st.level ≤ lvl)

/-- The keyword arguments get_db passes to the connection call. -/
structure ConnectParams where
  host : List Char
  database : Option (List Char)
  user : List Char
  password : List Char

/-- The process environment, as os.environ.get sees it. -/
abbrev Env := List Char → Option (List Char)

/-- get_db from the source: read the four configuration values, with the
defaults the source passes to os.environ.get, and hand exactly these to
the connection call; the database name has no default and may be absent. -/
def get_db (env : Env) : ConnectParams :=
  let password := (env (chars "PERSONAL_DATA_DB_PASSWORD")).getD (chars "")
  let username := (env (chars "PERSONAL_DATA_DB_USERNAME")).getD (chars "root")
  let host := (env (chars "PERSONAL_DATA_DB_HOST")).getD (chars "localhost")
  let db_name := env (chars "PERSONAL_DATA_DB_NAME")
  ConnectParams.mk host db_name username password

/-- One result row of the users query, in column order. -/
structure Row where
  name : List Char
  email : List Char
  phone : List Char
  ssn : List Char
  password : List Char
  ip : List Char
  last_login : List Char
  user_agent : List Char

/-- The line main builds for one row, exactly as the f-string in the
source concatenates it. -/
def formatRow (row : Row) : List Char :=
  chars "name=" ++ row.name ++ chars "; email=" ++ row.email
    ++ chars "; phone=" ++ row.phone ++ chars "; ssn=" ++ row.ssn
    ++ chars "; password=" ++ row.password ++ chars "; ip=" ++ row.ip
    ++ chars "; last_login=" ++ row.last_login ++ chars "; user_agent=" ++ row.user_agent
    ++ chars ";"

/-- The lines main prints: one formatted line per cursor row, with no
redaction step anywhere on this path. -/
def mainLines (rows : List Row) : List (List Char) :=
  rows.map formatRow

/-- The single users row of the concrete scenario in the specification. -/
def annRow : Row :=
  Row.mk (chars "Ann") (chars "ann@x.com") (chars "555-1234") (chars "000-00-0000")
    (chars "pw1") (chars "1.2.3.4") (chars "2024-01-01") (chars "curl/8")

theorem stripHead_eq_some {p m r : List Char} :
    stripHead p m = some r ↔ m = p ++ r := by
  induction p generalizing m with
  | nil => simp [stripHead]
  | cons a ps ih =>
    cases m with
    | nil => simp [stripHead]
    | cons c cs =>
      by_cases h : a = c
      · subst h
        simp [stripHead, ih]
      · constructor
        · intro h2
          simp [stripHead, h] at h2
        · intro h2
          rw [List.cons_append] at h2
          injection h2 with h3 h4
          exact absurd h3.symm h

theorem findValue_length {sep : Char} {m t : List Char}
    (h : findValue sep m = some t) : t.length < m.length := by
  induction m with
  | nil => simp [findValue] at h
  | cons c cs ih =>
    simp only [findValue] at h
    by_cases h1 : c = sep
    · rw [if_pos h1] at h
      injection h with h
      subst h
      simp
    · rw [if_neg h1] at h
      by_cases h2 : c = '\n'
      · rw [if_pos h2] at h
        exact absurd h (by simp)
      · rw [if_neg h2] at h
        exact Nat.lt_trans (ih h) (by simp)

theorem findValue_append {sep : Char} {v : List Char} (t : List Char)
    (hv : ∀ c ∈ v, c ≠ sep ∧ c ≠ '\n') :
    findValue sep (v ++ sep :: t) = some t := by
  induction v with
  | nil => simp [findValue]
  | cons c cs ih =>
    have hc := hv c (by simp)
    simp only [List.cons_append, findValue, if_neg hc.1, if_neg hc.2]
    exact ih fun d hd => hv d (by simp [hd])

theorem tryMatch_length {fld : List Char} {sep : Char} {msg t : List Char}
    (h : tryMatch fld sep msg = some t) : t.length < msg.length := by
  unfold tryMatch at h
  cases h2 : stripHead (fld ++ [ '=' ]) msg with
  | none => rw [h2] at h; exact absurd h (by simp)
  | some rest =>
    rw [h2] at h
    have hm := stripHead_eq_some.mp h2
    have h3 := findValue_length h
    rw [hm]
    have : rest.length ≤ (fld ++ [ '=' ]).length + rest.length := Nat.le_add_left _ _
    calc t.length < rest.length := h3
      _ ≤ ((fld ++ [ '=' ]) ++ rest).length := by simp; omega

theorem tryMatch_head {fld : List Char} {sep : Char} {v : List Char} (t : List Char)
    (hv : ∀ c ∈ v, c ≠ sep ∧ c ≠ '\n') :
    tryMatch fld sep (fld ++ '=' :: (v ++ sep :: t)) = some t := by
  unfold tryMatch
  have h1 : stripHead (fld ++ [ '=' ]) (fld ++ '=' :: (v ++ sep :: t))
      = some (v ++ sep :: t) := by
    apply stripHead_eq_some.mpr
    simp
  rw [h1]
  exact findValue_append t hv

theorem substGo_nil (fld M : List Char) (sep : Char) (fuel : Nat) :
    substGo fld M sep fuel [] = [] := by
  cases fuel <;> rfl

theorem substGo_match {fld M : List Char} {sep : Char} {c : Char}
    {rest tail : List Char} (fuel : Nat)
    (h : tryMatch fld sep (c :: rest) = some tail) :
    substGo fld M sep (fuel + 1) (c :: rest)
      = fld ++ '=' :: (M ++ sep :: substGo fld M sep fuel tail) := by
  simp only [substGo, h]

theorem substGo_nomatch {fld M : List Char} {sep : Char} {c : Char}
    {rest : List Char} (fuel : Nat)
    (h : tryMatch fld sep (c :: rest) = none) :
    substGo fld M sep (fuel + 1) (c :: rest) = c :: substGo fld M sep fuel rest := by
  simp only [substGo, h]

theorem substGo_fuel (fld M : List Char) (sep : Char) :
    ∀ fuel₁ fuel₂ msg, msg.length ≤ fuel₁ → msg.length ≤ fuel₂ →
      substGo fld M sep fuel₁ msg = substGo fld M sep fuel₂ msg := by
  intro fuel₁
  induction fuel₁ with
  | zero =>
    intro fuel₂ msg h1 _
    have : msg = [] := List.eq_nil_of_length_eq_zero (Nat.le_zero.mp h1)
    subst this
    rw [substGo_nil, substGo_nil]
  | succ f ih =>
    intro fuel₂ msg h1 h2
    cases msg with
    | nil => rw [substGo_nil, substGo_nil]
    | cons c rest =>
      cases fuel₂ with
      | zero => simp at h2
      | succ f2 =>
        simp only [List.length_cons] at h1 h2
        cases hm : tryMatch fld sep (c :: rest) with
        | some tail =>
          have hl := tryMatch_length hm
          simp only [List.length_cons] at hl
          rw [substGo_match f hm, substGo_match f2 hm,
            ih f2 tail (by omega) (by omega)]
        | none =>
          rw [substGo_nomatch f hm, substGo_nomatch f2 hm,
            ih f2 rest (by omega) (by omega)]

theorem subst1_nil (fld M : List Char) (sep : Char) : subst1 fld M sep [] = [] := rfl

theorem subst1_match {fld M : List Char} {sep : Char} {c : Char} {rest tail : List Char}
    (h : tryMatch fld sep (c :: rest) = some tail) :
    subst1 fld M sep (c :: rest) = fld ++ '=' :: (M ++ sep :: subst1 fld M sep tail) := by
  have hl := tryMatch_length h
  simp only [List.length_cons] at hl
  show substGo fld M sep (rest.length + 1) (c :: rest) = _
  rw [substGo_match rest.length h,
    substGo_fuel fld M sep rest.length tail.length tail (by omega) (by omega)]
  rfl

theorem subst1_nomatch {fld M : List Char} {sep : Char} {c : Char} {rest : List Char}
    (h : tryMatch fld sep (c :: rest) = none) :
    subst1 fld M sep (c :: rest) = c :: subst1 fld M sep rest := by
  show substGo fld M sep (rest.length + 1) (c :: rest) = _
  rw [substGo_nomatch rest.length h]
  rfl

theorem tryMatch_nil (fld : List Char) (sep : Char) : tryMatch fld sep [] = none := by
  cases fld <;> rfl

theorem subst1_eq_of_match {fld M : List Char} {sep : Char} {msg tail : List Char}
    (h : tryMatch fld sep msg = some tail) :
    subst1 fld M sep msg = fld ++ '=' :: (M ++ sep :: subst1 fld M sep tail) := by
  cases msg with
  | nil => rw [tryMatch_nil] at h; exact absurd h (by simp)
  | cons c rest => exact subst1_match h

theorem append_mid_cases {a b : List Char} {x y : Char} {t u : List Char}
    (h : a ++ x :: t = b ++ y :: u) :
    (a.length < b.length → x ∈ b) ∧ (a.length = b.length → a = b ∧ x = y ∧ t = u)
      ∧ (b.length < a.length → y ∈ a) := by
  induction a generalizing b with
  | nil =>
    cases b with
    | nil =>
      simp only [List.nil_append] at h
      injection h with h1 h2
      exact ⟨fun hl => absurd hl (by simp), fun _ => ⟨rfl, h1, h2⟩,
        fun hl => absurd hl (by simp)⟩
    | cons d bs =>
      simp only [List.nil_append, List.cons_append] at h
      injection h with h1 h2
      refine ⟨fun _ => ?_, fun he => ?_, fun hg => ?_⟩
      · rw [h1]; exact List.mem_cons_self d bs
      · simp at he
      · simp at hg
  | cons c as ih =>
    cases b with
    | nil =>
      simp only [List.cons_append, List.nil_append] at h
      injection h with h1 h2
      refine ⟨fun hl => ?_, fun he => ?_, fun _ => ?_⟩
      · simp at hl
      · simp at he
      · rw [← h1]; exact List.mem_cons_self c as
    | cons d bs =>
      simp only [List.cons_append] at h
      injection h with h1 h2
      obtain ⟨L, E, G⟩ := ih h2
      refine ⟨fun hl => ?_, fun he => ?_, fun hg => ?_⟩
      · simp only [List.length_cons] at hl
        exact List.mem_cons_of_mem d (L (by omega))
      · simp only [List.length_cons] at he
        obtain ⟨e1, e2, e3⟩ := E (by omega)
        exact ⟨by rw [h1, e1], e2, e3⟩
      · simp only [List.length_cons] at hg
        exact List.mem_cons_of_mem c (G (by omega))

theorem tryMatch_none_of_no_pre {fld : List Char} {sep : Char} {msg : List Char}
    (h : ∀ t, msg ≠ fld ++ '=' :: t) : tryMatch fld sep msg = none := by
  unfold tryMatch
  cases h2 : stripHead (fld ++ [ '=' ]) msg with
  | none => rfl
  | some rest =>
    have h3 := stripHead_eq_some.mp h2
    rw [List.append_assoc, List.singleton_append] at h3
    exact absurd h3 (h rest)

theorem tryMatch_none_key {fld kd : List Char} {sep : Char} (w : List Char)
    (hfld : '=' ∉ fld) (hkd : '=' ∉ kd) (hne : fld ≠ kd) :
    tryMatch fld sep (kd ++ '=' :: w) = none := by
  apply tryMatch_none_of_no_pre
  intro t ht
  obtain ⟨L, E, G⟩ := append_mid_cases ht.symm
  rcases Nat.lt_trichotomy fld.length kd.length with hl | he | hg
  · exact hkd (L hl)
  · exact hne (E he).1
  · exact hfld (G hg)

theorem tryMatch_none_val {fld vd : List Char} {sep : Char} (w : List Char)
    (hsep : sep ≠ '=') (hfs : sep ∉ fld) (hvd : '=' ∉ vd) :
    tryMatch fld sep (vd ++ sep :: w) = none := by
  apply tryMatch_none_of_no_pre
  intro t ht
  obtain ⟨L, E, G⟩ := append_mid_cases ht.symm
  rcases Nat.lt_trichotomy fld.length vd.length with hl | he | hg
  · exact hvd (L hl)
  · exact hsep ((E he).2.1).symm
  · exact hfs (G hg)

theorem suffix_cons_cases {zs : List Char} {c : Char} {l : List Char} (h : zs <:+ c :: l) :
    zs = c :: l ∨ zs <:+ l := by
  obtain ⟨t, ht⟩ := h
  cases t with
  | nil => exact Or.inl (by simpa using ht)
  | cons d ts =>
    injection ht with h1 h2
    exact Or.inr ⟨ts, h2⟩

theorem suffix_append_cases {zs a b : List Char} (h : zs <:+ a ++ b) :
    zs <:+ b ∨ ∃ kd, kd ≠ [] ∧ kd <:+ a ∧ zs = kd ++ b := by
  induction a with
  | nil => exact Or.inl (by simpa using h)
  | cons c as ih =>
    obtain ⟨t, ht⟩ := h
    cases t with
    | nil =>
      right
      exact ⟨c :: as, by simp, List.suffix_refl _, by simpa using ht⟩
    | cons d ts =>
      simp only [List.cons_append] at ht
      injection ht with h1 h2
      rcases ih ⟨ts, h2⟩ with hb | ⟨kd, hne, hsuf, heq⟩
      · exact Or.inl hb
      · exact Or.inr ⟨kd, hne, hsuf.trans (List.suffix_cons c as), heq⟩

theorem subst1_skip {fld M : List Char} {sep : Char} {xs ys : List Char}
    (H : ∀ zs, zs ≠ [] → zs <:+ xs → tryMatch fld sep (zs ++ ys) = none) :
    subst1 fld M sep (xs ++ ys) = xs ++ subst1 fld M sep ys := by
  induction xs with
  | nil => simp
  | cons c as ih =>
    have h0 : tryMatch fld sep (c :: (as ++ ys)) = none := by
      have := H (c :: as) (by simp) (List.suffix_refl _)
      simpa using this
    rw [List.cons_append, subst1_nomatch h0,
      ih fun zs hne hs => H zs hne (hs.trans (List.suffix_cons c as))]
    simp

theorem litOk_spec {sep : Char} {s : List Char} (h : litOk sep s = true) :
    ∀ c ∈ s, c ≠ sep ∧ c ≠ '\n' ∧ c ≠ '=' := by
  simp only [litOk, List.all_eq_true, Bool.and_eq_true, bne_iff_ne] at h
  intro c hc
  exact ⟨(h c hc).1.1, (h c hc).1.2, (h c hc).2⟩

theorem litOk_mems {sep : Char} {s : List Char} (h : litOk sep s = true) :
    sep ∉ s ∧ '\n' ∉ s ∧ '=' ∉ s :=
  ⟨fun hm => (litOk_spec h sep hm).1 rfl, fun hm => (litOk_spec h _ hm).2.1 rfl,
    fun hm => (litOk_spec h _ hm).2.2 rfl⟩

theorem mem_of_suffix {c : Char} {a b : List Char} (h : a <:+ b) (hc : c ∈ a) : c ∈ b := by
  obtain ⟨t, ht⟩ := h
  rw [← ht]
  exact List.mem_append.mpr (Or.inr hc)

/-- The central structural fact: on a message that is a well-formed sequence
of key=value segments whose keys, values and marker avoid the separator,
newlines and equal signs, one re.sub pass for one such field rewrites the
message segmentwise, replacing the value of exactly those segments whose
key ends in the field name. -/
theorem subst1_render (fld M : List Char) (sep : Char) (segs : List Segment)
    (hsep : sep ≠ '=') (hfld : litOk sep fld = true)
    (hsegs : ∀ s ∈ segs, litOk sep s.key = true ∧ litOk sep s.val = true) :
    subst1 fld M sep (render sep segs) = render sep (segs.map (redactSeg fld M)) := by
  induction segs with
  | nil => rfl
  | cons s rest ih =>
    have hkey := (hsegs s (by simp)).1
    have hval := (hsegs s (by simp)).2
    have ihr := ih fun s2 hs2 => hsegs s2 (by simp [hs2])
    have hvpair : ∀ c ∈ s.val, c ≠ sep ∧ c ≠ '\n' := fun c hc =>
      ⟨(litOk_spec hval c hc).1, (litOk_spec hval c hc).2.1⟩
    have hrender : render sep (s :: rest)
        = s.key ++ '=' :: (s.val ++ sep :: render sep rest) := by
      show renderSeg sep s ++ render sep rest = _
      simp [renderSeg]
    by_cases hsuf : fld <:+ s.key
    · obtain ⟨p, hp⟩ := hsuf
      have hmargin : render sep (s :: rest)
          = p ++ (fld ++ '=' :: (s.val ++ sep :: render sep rest)) := by
        rw [hrender, ← hp]
        simp
      have hskip : ∀ zs, zs ≠ [] →
          zs <:+ p → tryMatch fld sep (zs ++ (fld ++ '=' :: (s.val ++ sep :: render sep rest))) = none := by
        intro zs hne hzs
        have hassoc : zs ++ (fld ++ '=' :: (s.val ++ sep :: render sep rest))
            = (zs ++ fld) ++ '=' :: (s.val ++ sep :: render sep rest) := by simp
        rw [hassoc]
        apply tryMatch_none_key
        · exact (litOk_mems hfld).2.2
        · intro hmem
          rcases List.mem_append.mp hmem with hz | hf
          · have hzp : '=' ∈ p := mem_of_suffix hzs hz
            have : '=' ∈ s.key := by
              rw [← hp]
              exact List.mem_append.mpr (Or.inl hzp)
            exact (litOk_mems hkey).2.2 this
          · exact (litOk_mems hfld).2.2 hf
        · intro heq
          have hlen := congrArg List.length heq
          simp at hlen
          exact hne hlen
      rw [hmargin, subst1_skip hskip,
        subst1_eq_of_match (tryMatch_head (render sep rest) hvpair), ihr]
      have hrs : render sep ((s :: rest).map (redactSeg fld M))
          = p ++ (fld ++ '=' :: (M ++ sep :: render sep (rest.map (redactSeg fld M)))) := by
        show renderSeg sep (redactSeg fld M s) ++ render sep (rest.map (redactSeg fld M)) = _
        rw [redactSeg, if_pos ⟨p, hp⟩]
        show (s.key ++ '=' :: (M ++ [ sep ])) ++ _ = _
        rw [← hp]
        simp
      rw [hrs]
    · have hfne : fld ≠ [] := by
        intro h0
        exact hsuf (h0 ▸ List.nil_suffix)
      have hx : render sep (s :: rest)
          = (s.key ++ '=' :: (s.val ++ [ sep ])) ++ render sep rest := by
        rw [hrender]
        simp
      have hskip : ∀ zs, zs ≠ [] → zs <:+ s.key ++ '=' :: (s.val ++ [ sep ]) →
          tryMatch fld sep (zs ++ render sep rest) = none := by
        intro zs hne hzs
        rcases suffix_append_cases hzs with hz1 | ⟨kd, hkne, hkd, hzeq⟩
        · rcases suffix_cons_cases hz1 with hz2 | hz3
          · subst hz2
            have h0 : tryMatch fld sep ([] ++ '=' :: (s.val ++ [ sep ] ++ render sep rest)) = none :=
              tryMatch_none_key _ (litOk_mems hfld).2.2 (by simp) hfne
            simpa using h0
          · rcases suffix_append_cases hz3 with hz4 | ⟨vd, hvne, hvd, hveq⟩
            · rcases suffix_cons_cases hz4 with hz5 | hz6
              · subst hz5
                have h0 : tryMatch fld sep (([] : List Char) ++ sep :: render sep rest) = none :=
                  tryMatch_none_val _ hsep (litOk_mems hfld).1 (by simp)
                simpa using h0
              · have : zs = [] := by simpa using hz6
                exact absurd this hne
            · subst hveq
              have hvdm : '=' ∉ vd := fun hm => (litOk_mems hval).2.2 (mem_of_suffix hvd hm)
              have h0 : tryMatch fld sep (vd ++ sep :: render sep rest) = none :=
                tryMatch_none_val _ hsep (litOk_mems hfld).1 hvdm
              simpa using h0
        · subst hzeq
          have hkdm : '=' ∉ kd := fun hm => (litOk_mems hkey).2.2 (mem_of_suffix hkd hm)
          have hne2 : fld ≠ kd := by
            intro h0
            exact hsuf (h0 ▸ hkd)
          have h0 : tryMatch fld sep (kd ++ '=' :: (s.val ++ [ sep ] ++ render sep rest)) = none :=
            tryMatch_none_key _ (litOk_mems hfld).2.2 hkdm hne2
          simpa using h0
      rw [hx, subst1_skip hskip, ihr]
      have hrs : render sep ((s :: rest).map (redactSeg fld M))
          = (s.key ++ '=' :: (s.val ++ [ sep ])) ++ render sep (rest.map (redactSeg fld M)) := by
        show renderSeg sep (redactSeg fld M s) ++ render sep (rest.map (redactSeg fld M)) = _
        rw [redactSeg, if_neg hsuf]
        simp [renderSeg]
      rw [hrs]

theorem redactSeg_key (fld M : List Char) (s : Segment) :
    (redactSeg fld M s).key = s.key := by
  rw [redactSeg]
  by_cases h : fld <:+ s.key
  · rw [if_pos h]
  · rw [if_neg h]

theorem redactSeg_litOk {sep : Char} {M : List Char} (fld : List Char) {s : Segment}
    (hM : litOk sep M = true) (h : litOk sep s.key = true ∧ litOk sep s.val = true) :
    litOk sep (redactSeg fld M s).key = true ∧ litOk sep (redactSeg fld M s).val = true := by
  rw [redactSeg]
  by_cases hs : fld <:+ s.key
  · rw [if_pos hs]
    exact ⟨h.1, hM⟩
  · rw [if_neg hs]
    exact h

theorem redactAll_step (g : List Char) (fields : List (List Char)) (M : List Char)
    (s : Segment) :
    redactAll fields M (redactSeg g M s) = redactAll (g :: fields) M s := by
  by_cases hg : g <:+ s.key
  · rw [redactSeg, if_pos hg]
    rw [redactAll, redactAll]
    by_cases h2 : ∃ f ∈ fields, f <:+ s.key
    · rw [if_pos (by simpa using h2), if_pos ⟨g, by simp, hg⟩]
    · rw [if_neg (by simpa using h2), if_pos ⟨g, by simp, hg⟩]
  · rw [redactSeg, if_neg hg]
    rw [redactAll, redactAll]
    by_cases h2 : ∃ f ∈ fields, f <:+ s.key
    · rw [if_pos h2, if_pos ?side]
      case side =>
        obtain ⟨f, hf1, hf2⟩ := h2
        exact ⟨f, by simp [hf1], hf2⟩
    · rw [if_neg h2, if_neg ?side]
      case side =>
        intro ⟨f, hf1, hf2⟩
        rcases List.mem_cons.mp hf1 with h3 | h3
        · exact hg (h3 ▸ hf2)
        · exact h2 ⟨f, h3, hf2⟩

/-- The field loop of filter_datum acts on a well-formed segmented message
segmentwise: the value of a segment is replaced by the marker exactly when
some watched field is a suffix of its key, and nothing else changes. -/
theorem filter_datum_render (fields : List (List Char)) (M : List Char) (sep : Char)
    (segs : List Segment) (hsep : sep ≠ '=') (hM : litOk sep M = true)
    (hfields : ∀ g ∈ fields, litOk sep g = true)
    (hsegs : ∀ s ∈ segs, litOk sep s.key = true ∧ litOk sep s.val = true) :
    filter_datum fields M (render sep segs) sep
      = render sep (segs.map (redactAll fields M)) := by
  induction fields generalizing segs with
  | nil =>
    show render sep segs = _
    have h1 : ∀ s : Segment, redactAll [] M s = s := by
      intro s
      rw [redactAll, if_neg (by simp)]
    have hmap : ∀ ss : List Segment, ss.map (redactAll [] M) = ss := by
      intro ss
      induction ss with
      | nil => rfl
      | cons a l ihm => simp [List.map_cons, ihm, h1 a]
    rw [hmap]
  | cons g rest ih =>
    have hg := hfields g (by simp)
    have hstep : filter_datum (g :: rest) M (render sep segs) sep
        = filter_datum rest M (subst1 g M sep (render sep segs)) sep := rfl
    rw [hstep, subst1_render g M sep segs hsep hg hsegs,
      ih (segs.map (redactSeg g M))
        (fun f hf => hfields f (by simp [hf]))
        (fun s2 hs2 => by
          obtain ⟨s0, hs0, hs0e⟩ := List.mem_map.mp hs2
          exact hs0e ▸ redactSeg_litOk g hM (hsegs s0 hs0)),
      List.map_map]
    have : (redactAll rest M ∘ redactSeg g M) = redactAll (g :: rest) M := by
      funext s
      exact redactAll_step g rest M s
    rw [this]

theorem subst1_of_not_infix {fld M : List Char} {sep : Char} {m : List Char}
    (h : ¬ fld <:+: m) : subst1 fld M sep m = m := by
  induction m with
  | nil => rfl
  | cons c rest ih =>
    have hnone : tryMatch fld sep (c :: rest) = none := by
      apply tryMatch_none_of_no_pre
      intro t ht
      exact h ⟨[], '=' :: t, by simp [ht]⟩
    have hr : ¬ fld <:+: rest := by
      intro hinf
      obtain ⟨s, t, hst⟩ := hinf
      exact h ⟨c :: s, t, by simp [hst]⟩
    rw [subst1_nomatch hnone, ih hr]

/-- On the literal-domain model, a message in which no watched field name
occurs as a substring is returned unchanged. -/
theorem filter_datum_no_occurrence_model (fields : List (List Char))
    (M m : List Char) (sep : Char) (h : ∀ g ∈ fields, ¬ g <:+: m) :
    filter_datum fields M m sep = m := by
  induction fields with
  | nil => rfl
  | cons g rest ih =>
    have h1 : subst1 g M sep m = m := subst1_of_not_infix (h g (by simp))
    show filter_datum rest M (subst1 g M sep m) sep = m
    rw [h1]
    exact ih fun f hf => h f (by simp [hf])

/-- C2 counterexample: the field name consisting of an opening parenthesis
does not occur in the message hello, yet the program raises re.error
instead of returning the message unchanged. -/
theorem filter_datum_absent_field_error_counterexample :
    ¬ (chars "(") <:+: (chars "hello")
    ∧ filter_datum_py [chars "("] (chars "***") (chars "hello") ';'
        = some (Except.error ()) := by
  refine ⟨by decide, rfl⟩

/-- C2 (amended): within the regex-literal domain, namely fields made of
literal pattern characters, a non-alphanumeric non-backslash separator and
a backslash-free marker, the program raises no exception and returns
unchanged every message in which no watched field name occurs. -/
theorem filter_datum_absent_fields_unchanged (fields : List (List Char))
    (M m : List Char) (sep : Char)
    (hlit : ∀ g ∈ fields, ∀ c ∈ g, patLiteral c = true)
    (hsl : sepLiteral sep = true) (hbs : '\\' ∉ M)
    (h : ∀ g ∈ fields, ¬ g <:+: m) :
    filter_datum_py fields M m sep = some (Except.ok m) := by
  simp only [filter_datum_py]
  rw [if_pos ⟨hlit, hsl, hbs⟩, filter_datum_no_occurrence_model fields M m sep h]

/-- C2 witness: a message that mentions no PII field is unchanged and
raises nothing. -/
theorem filter_datum_absent_fields_unchanged_witness :
    filter_datum_py PII_FIELDS (chars "***") (chars "Hello user;id=42;") ';'
      = some (Except.ok (chars "Hello user;id=42;")) :=
  filter_datum_absent_fields_unchanged _ _ _ _ (by decide) (by decide) (by decide)
    (by decide)

/-- C1 counterexample: the value a-newline-b contains no separator, the
field f is watched, yet the message f=a-newline-b-semicolon is returned
unchanged rather than redacted, because the dot of the pattern does not
match a newline. -/
theorem filter_datum_newline_value_counterexample :
    (chars "a\nb").all (fun c => c != ';') = true
    ∧ filter_datum [chars "f"] (chars "x") (chars "f=" ++ chars "a\nb" ++ [ ';' ]) ';'
        ≠ chars "f=" ++ chars "x" ++ [ ';' ]
    ∧ filter_datum [chars "f"] (chars "x") (chars "f=" ++ chars "a\nb" ++ [ ';' ]) ';'
        = chars "f=" ++ chars "a\nb" ++ [ ';' ] := by
  refine ⟨by decide, by decide, by decide⟩

/-- On the literal-domain model: for a watched field f, a value and a
marker that contain no separator, no newline and no equals sign, with
every watched field name likewise constrained, the scan maps the
single-segment message f=value-separator to f=marker-separator. -/
theorem filter_datum_single_segment_model (fields : List (List Char))
    (f v M : List Char) (sep : Char) (hmem : f ∈ fields) (hsep : sep ≠ '=')
    (hfields : ∀ g ∈ fields, litOk sep g = true)
    (hv : litOk sep v = true) (hM : litOk sep M = true) :
    filter_datum fields M (f ++ '=' :: (v ++ [ sep ])) sep = f ++ '=' :: (M ++ [ sep ]) := by
  have hseg : ∀ s ∈ [Segment.mk f v], litOk sep s.key = true ∧ litOk sep s.val = true := by
    intro s hs
    simp at hs
    subst hs
    exact ⟨hfields f hmem, hv⟩
  have h0 := filter_datum_render fields M sep [Segment.mk f v] hsep hM hfields hseg
  have hr1 : render sep [Segment.mk f v] = f ++ '=' :: (v ++ [ sep ]) := by
    show renderSeg sep (Segment.mk f v) ++ [] = _
    simp [renderSeg]
  have hcond : ∃ g ∈ fields, g <:+ (Segment.mk f v).key := ⟨f, hmem, List.suffix_refl f⟩
  have hr2 : render sep ([Segment.mk f v].map (redactAll fields M))
      = f ++ '=' :: (M ++ [ sep ]) := by
    show renderSeg sep (redactAll fields M (Segment.mk f v)) ++ [] = _
    rw [redactAll, if_pos hcond]
    simp [renderSeg]
  rw [← hr1, h0, hr2]

/-- C1 (amended): within the regex-literal domain, namely watched field
names made of literal pattern characters, a non-alphanumeric non-backslash
separator and a backslash-free marker, and with the value, the marker and
every watched field name free of the separator, newlines and equal signs,
the program raises no exception and maps the single-segment message
f=value-separator to f=marker-separator, the value consumed being the
shortest run ending at the next separator. -/
theorem filter_datum_single_segment_redacts (fields : List (List Char))
    (f v M : List Char) (sep : Char) (hmem : f ∈ fields) (hsep : sep ≠ '=')
    (hfields : ∀ g ∈ fields, litOk sep g = true)
    (hv : litOk sep v = true) (hM : litOk sep M = true)
    (hlit : ∀ g ∈ fields, ∀ c ∈ g, patLiteral c = true)
    (hsl : sepLiteral sep = true) (hbs : '\\' ∉ M) :
    filter_datum_py fields M (f ++ '=' :: (v ++ [ sep ])) sep
      = some (Except.ok (f ++ '=' :: (M ++ [ sep ]))) := by
  simp only [filter_datum_py]
  rw [if_pos ⟨hlit, hsl, hbs⟩,
    filter_datum_single_segment_model fields f v M sep hmem hsep hfields hv hM]

/-- C1 witness: the watched field name is redacted in a one-segment
message and nothing is raised. -/
theorem filter_datum_single_segment_redacts_witness :
    filter_datum_py [chars "name", chars "email"] (chars "***")
        (chars "name" ++ '=' :: (chars "Bob" ++ [ ';' ])) ';'
      = some (Except.ok (chars "name" ++ '=' :: (chars "***" ++ [ ';' ]))) :=
  filter_datum_single_segment_redacts _ _ _ _ _ (by decide) (by decide) (by decide)
    (by decide) (by decide) (by decide) (by decide) (by decide)

/-- C3 counterexample: a field name consisting of an opening parenthesis is
a well-formed string input, yet the call raises re.error in CPython,
modelled here by the error branch. -/
theorem filter_datum_py_paren_error :
    filter_datum_py [chars "("] (chars "x") (chars "message") ';'
      = some (Except.error ()) := rfl

/-- C3 (amended): on the literal domain, namely fields made of literal
pattern characters, a non-alphanumeric non-backslash separator and a
backslash-free marker, filter_datum raises no exception and deterministically
returns the pure redaction result. -/
theorem filter_datum_py_literal_ok (fields : List (List Char))
    (redaction message : List Char) (sep : Char)
    (h1 : ∀ g ∈ fields, ∀ c ∈ g, patLiteral c = true)
    (h2 : sepLiteral sep = true) (h3 : '\\' ∉ redaction) :
    filter_datum_py fields redaction message sep
      = some (Except.ok (filter_datum fields redaction message sep)) := by
  simp only [filter_datum_py]
  rw [if_pos ⟨h1, h2, h3⟩]

/-- C3 witness: the PII fields with the fixed marker and separator are in
the literal domain. -/
theorem filter_datum_py_literal_ok_witness :
    filter_datum_py PII_FIELDS (chars "***") (chars "name=Bob;") ';'
      = some (Except.ok (filter_datum PII_FIELDS (chars "***") (chars "name=Bob;") ';')) :=
  filter_datum_py_literal_ok _ _ _ _ (by decide) (by decide) (by decide)

/-- C4 counterexample: with the marker x-semicolon-y, which contains the
separator, a second application of filter_datum changes the output of the
first, although the original value v never equals the marker. -/
theorem filter_datum_not_idempotent_marker_sep :
    filter_datum [chars "a"] (chars "x;y")
        (filter_datum [chars "a"] (chars "x;y") (chars "a=v;") ';') ';'
      ≠ filter_datum [chars "a"] (chars "x;y") (chars "a=v;") ';' := by
  decide

theorem redactAll_idem (fields : List (List Char)) (M : List Char) (s : Segment) :
    redactAll fields M (redactAll fields M s) = redactAll fields M s := by
  by_cases hc : ∃ g ∈ fields, g <:+ s.key
  · have h1 : redactAll fields M s = Segment.mk s.key M := by
      rw [redactAll, if_pos hc]
    rw [h1]
    show (if ∃ g ∈ fields, g <:+ s.key then Segment.mk s.key M else Segment.mk s.key M)
      = Segment.mk s.key M
    rw [if_pos hc]
  · have h1 : redactAll fields M s = s := by
      rw [redactAll, if_neg hc]
    rw [h1, h1]

/-- On the literal-domain model: on well-formed segmented messages, with
the marker and all watched field names free of the separator, newlines and
equals signs, applying the scan twice equals applying it once. -/
theorem filter_datum_idempotent_model (fields : List (List Char)) (M : List Char)
    (sep : Char) (segs : List Segment) (hsep : sep ≠ '=')
    (hM : litOk sep M = true) (hfields : ∀ g ∈ fields, litOk sep g = true)
    (hsegs : ∀ s ∈ segs, litOk sep s.key = true ∧ litOk sep s.val = true) :
    filter_datum fields M (filter_datum fields M (render sep segs) sep) sep
      = filter_datum fields M (render sep segs) sep := by
  rw [filter_datum_render fields M sep segs hsep hM hfields hsegs]
  have hsegs2 : ∀ s ∈ segs.map (redactAll fields M),
      litOk sep s.key = true ∧ litOk sep s.val = true := by
    intro s2 hs2
    obtain ⟨s0, hs0, he⟩ := List.mem_map.mp hs2
    subst he
    by_cases hc : ∃ g ∈ fields, g <:+ s0.key
    · have h1 : redactAll fields M s0 = Segment.mk s0.key M := by
        rw [redactAll, if_pos hc]
      rw [h1]
      exact ⟨(hsegs s0 hs0).1, hM⟩
    · have h1 : redactAll fields M s0 = s0 := by
        rw [redactAll, if_neg hc]
      rw [h1]
      exact hsegs s0 hs0
  rw [filter_datum_render fields M sep (segs.map (redactAll fields M)) hsep hM hfields hsegs2,
    List.map_map]
  have hpt : (redactAll fields M ∘ redactAll fields M) = redactAll fields M := by
    funext s
    exact redactAll_idem fields M s
  rw [hpt]

/-- C4 (amended): within the regex-literal domain (literal field
characters, a non-alphanumeric non-backslash separator, a backslash-free
marker) and on well-formed segmented messages whose marker and watched
field names avoid the separator, newlines and equal signs, the program
raises nothing and a second application returns the once-redacted message
unchanged. -/
theorem filter_datum_idempotent_segments (fields : List (List Char)) (M : List Char)
    (sep : Char) (segs : List Segment) (hsep : sep ≠ '=')
    (hM : litOk sep M = true) (hfields : ∀ g ∈ fields, litOk sep g = true)
    (hsegs : ∀ s ∈ segs, litOk sep s.key = true ∧ litOk sep s.val = true)
    (hlit : ∀ g ∈ fields, ∀ c ∈ g, patLiteral c = true)
    (hsl : sepLiteral sep = true) (hbs : '\\' ∉ M) :
    filter_datum_py fields M (render sep segs) sep
        = some (Except.ok (filter_datum fields M (render sep segs) sep))
    ∧ filter_datum_py fields M (filter_datum fields M (render sep segs) sep) sep
        = some (Except.ok (filter_datum fields M (render sep segs) sep)) := by
  constructor
  · simp only [filter_datum_py]
    rw [if_pos ⟨hlit, hsl, hbs⟩]
  · simp only [filter_datum_py]
    rw [if_pos ⟨hlit, hsl, hbs⟩,
      filter_datum_idempotent_model fields M sep segs hsep hM hfields hsegs]

/-- C4 witness: redacting a redacted one-segment message changes nothing
and raises nothing. -/
theorem filter_datum_idempotent_segments_witness :
    filter_datum_py PII_FIELDS (chars "***")
        (render ';' [Segment.mk (chars "name") (chars "Bob")]) ';'
      = some (Except.ok (filter_datum PII_FIELDS (chars "***")
          (render ';' [Segment.mk (chars "name") (chars "Bob")]) ';'))
    ∧ filter_datum_py PII_FIELDS (chars "***")
          (filter_datum PII_FIELDS (chars "***")
            (render ';' [Segment.mk (chars "name") (chars "Bob")]) ';') ';'
        = some (Except.ok (filter_datum PII_FIELDS (chars "***")
            (render ';' [Segment.mk (chars "name") (chars "Bob")]) ';')) :=
  filter_datum_idempotent_segments _ _ _ _ (by decide) (by decide) (by decide)
    (by decide) (by decide) (by decide) (by decide)

/-- C5 counterexample: with the marker b=2, processing the fields in the
order a then b gives a different final string from the order b then a on a
message containing both fields. -/
theorem filter_datum_order_dependent_counterexample :
    filter_datum [chars "a", chars "b"] (chars "b=2") (chars "a=1;b=3;") ';'
      ≠ filter_datum [chars "b", chars "a"] (chars "b=2") (chars "a=1;b=3;") ';' := by
  decide

/-- On the literal-domain model: on well-formed segmented messages, with
both field names and the marker free of the separator, newlines and equals
signs, the two processing orders give the same final string. -/
theorem filter_datum_order_model (a b M : List Char) (sep : Char)
    (segs : List Segment) (hsep : sep ≠ '=') (ha : litOk sep a = true)
    (hb : litOk sep b = true) (hM : litOk sep M = true)
    (hsegs : ∀ s ∈ segs, litOk sep s.key = true ∧ litOk sep s.val = true) :
    filter_datum [a, b] M (render sep segs) sep
      = filter_datum [b, a] M (render sep segs) sep := by
  have hab : ∀ g ∈ [a, b], litOk sep g = true := by
    intro g hg
    rcases List.mem_cons.mp hg with h | h
    · exact h ▸ ha
    · simp at h
      exact h ▸ hb
  have hba : ∀ g ∈ [b, a], litOk sep g = true := by
    intro g hg
    rcases List.mem_cons.mp hg with h | h
    · exact h ▸ hb
    · simp at h
      exact h ▸ ha
  rw [filter_datum_render [a, b] M sep segs hsep hM hab hsegs,
    filter_datum_render [b, a] M sep segs hsep hM hba hsegs]
  have hpt : ∀ s : Segment, redactAll [a, b] M s = redactAll [b, a] M s := by
    intro s
    have hiff : (∃ g ∈ [a, b], g <:+ s.key) ↔ (∃ g ∈ [b, a], g <:+ s.key) := by
      constructor
      · rintro ⟨g, hg, hgs⟩
        refine ⟨g, ?_, hgs⟩
        simp only [List.mem_cons] at hg ⊢
        tauto
      · rintro ⟨g, hg, hgs⟩
        refine ⟨g, ?_, hgs⟩
        simp only [List.mem_cons] at hg ⊢
        tauto
    rw [redactAll, redactAll]
    by_cases hc : ∃ g ∈ [a, b], g <:+ s.key
    · rw [if_pos hc, if_pos (hiff.mp hc)]
    · rw [if_neg hc, if_neg (fun hc2 => hc (hiff.mpr hc2))]
  have hm : ∀ ss : List Segment, ss.map (redactAll [a, b] M) = ss.map (redactAll [b, a] M) := by
    intro ss
    induction ss with
    | nil => rfl
    | cons x xs ihm => simp [List.map_cons, ihm, hpt x]
  rw [hm segs]

/-- C5 (amended): within the regex-literal domain (both field names made
of literal pattern characters, a non-alphanumeric non-backslash separator,
a backslash-free marker) and on well-formed segmented messages whose field
names and marker avoid the separator, newlines and equal signs, the
program gives the same result for the two processing orders, raising
nothing. -/
theorem filter_datum_order_independent_segments (a b M : List Char) (sep : Char)
    (segs : List Segment) (hsep : sep ≠ '=') (ha : litOk sep a = true)
    (hb : litOk sep b = true) (hM : litOk sep M = true)
    (hsegs : ∀ s ∈ segs, litOk sep s.key = true ∧ litOk sep s.val = true)
    (hla : ∀ c ∈ a, patLiteral c = true) (hlb : ∀ c ∈ b, patLiteral c = true)
    (hsl : sepLiteral sep = true) (hbs : '\\' ∉ M) :
    filter_datum_py [a, b] M (render sep segs) sep
        = filter_datum_py [b, a] M (render sep segs) sep
    ∧ filter_datum_py [a, b] M (render sep segs) sep
        = some (Except.ok (filter_datum [a, b] M (render sep segs) sep)) := by
  have hlab : ∀ g ∈ [a, b], ∀ c ∈ g, patLiteral c = true := by
    intro g hg
    rcases List.mem_cons.mp hg with h | h
    · exact h ▸ hla
    · simp at h
      exact h ▸ hlb
  have hlba : ∀ g ∈ [b, a], ∀ c ∈ g, patLiteral c = true := by
    intro g hg
    rcases List.mem_cons.mp hg with h | h
    · exact h ▸ hlb
    · simp at h
      exact h ▸ hla
  constructor
  · simp only [filter_datum_py]
    rw [if_pos ⟨hlab, hsl, hbs⟩, if_pos ⟨hlba, hsl, hbs⟩,
      filter_datum_order_model a b M sep segs hsep ha hb hM hsegs]
  · simp only [filter_datum_py]
    rw [if_pos ⟨hlab, hsl, hbs⟩]

/-- C5 witness: both orders agree, without error, on a two-segment message
containing both fields. -/
theorem filter_datum_order_independent_segments_witness :
    filter_datum_py [chars "name", chars "email"] (chars "***")
        (render ';' [Segment.mk (chars "name") (chars "Bob"),
          Segment.mk (chars "email") (chars "b")]) ';'
      = filter_datum_py [chars "email", chars "name"] (chars "***")
          (render ';' [Segment.mk (chars "name") (chars "Bob"),
            Segment.mk (chars "email") (chars "b")]) ';'
    ∧ filter_datum_py [chars "name", chars "email"] (chars "***")
        (render ';' [Segment.mk (chars "name") (chars "Bob"),
          Segment.mk (chars "email") (chars "b")]) ';'
      = some (Except.ok (filter_datum [chars "name", chars "email"] (chars "***")
          (render ';' [Segment.mk (chars "name") (chars "Bob"),
            Segment.mk (chars "email") (chars "b")]) ';')) :=
  filter_datum_order_independent_segments _ _ _ _ _ (by decide) (by decide) (by decide)
    (by decide) (by decide) (by decide) (by decide) (by decide) (by decide)

/-- C6: format renders the record through the fixed HOLBERTON template,
with the asctime placeholder left-justified to width fifteen, and passes
the rendered line through filter_datum with the held field list, the fixed
marker and the fixed separator. -/
theorem format_is_redacted_template (flds : List (List Char)) (record : LogRecord) :
    RedactingFormatter.format (RedactingFormatter.mk flds) record
      = filter_datum flds (chars "***")
          (chars "[HOLBERTON] " ++ record.name ++ chars " " ++ record.levelname
            ++ chars " " ++ (record.asctime ++ List.replicate (15 - record.asctime.length) ' ')
            ++ chars ": " ++ record.message) ';' := rfl

/-- C7: on a fresh registry, get_logger returns the logger named user_data
with level INFO, propagation disabled and exactly one stream handler whose
formatter is a RedactingFormatter over the PII fields; records below INFO
are not enabled. -/
theorem get_logger_config (reg : Registry)
    (hfresh : lookupLogger reg (chars "user_data") = none) :
    (get_logger reg).1.1 = chars "user_data"
    ∧ (get_logger reg).1.2.level = INFO
    ∧ (get_logger reg).1.2.propagate = false
    ∧ (get_logger reg).1.2.handlers = [Handler.mk true (RedactingFormatter.mk PII_FIELDS)]
    ∧ ∀ lvl, lvl < INFO → isEnabledFor (get_logger reg).1.2 lvl = false := by
  have h1 : (get_logger reg).1.2
      = LoggerState.mk INFO false [Handler.mk true (RedactingFormatter.mk PII_FIELDS)] := by
    show LoggerState.mk INFO false
        (((lookupLogger reg (chars "user_data")).getD freshLogger).handlers
          ++ [Handler.mk true (RedactingFormatter.mk PII_FIELDS)]) = _
    rw [hfresh]
    rfl
  refine ⟨rfl, ?_, ?_, ?_, ?_⟩
  · rw [h1]
  · rw [h1]
  · rw [h1]
  · intro lvl hlvl
    have h20 : lvl < 20 := hlvl
    rw [h1]
    simp [isEnabledFor, INFO]
    omega

/-- C7 witness: the empty registry is fresh. -/
theorem get_logger_config_witness :
    (get_logger []).1.1 = chars "user_data"
    ∧ (get_logger []).1.2.level = INFO
    ∧ (get_logger []).1.2.propagate = false
    ∧ (get_logger []).1.2.handlers = [Handler.mk true (RedactingFormatter.mk PII_FIELDS)]
    ∧ ∀ lvl, lvl < INFO → isEnabledFor (get_logger []).1.2 lvl = false :=
  get_logger_config [] rfl

/-- C8: get_db reads the password, username, host and database name from
the four environment variables with the documented defaults, the database
name having none, and passes exactly these values to the connection call. -/
theorem get_db_env_defaults (env : Env) :
    (get_db env).password = (env (chars "PERSONAL_DATA_DB_PASSWORD")).getD []
    ∧ (get_db env).user = (env (chars "PERSONAL_DATA_DB_USERNAME")).getD (chars "root")
    ∧ (get_db env).host = (env (chars "PERSONAL_DATA_DB_HOST")).getD (chars "localhost")
    ∧ (get_db env).database = env (chars "PERSONAL_DATA_DB_NAME")
    ∧ get_db env = ConnectParams.mk
        ((env (chars "PERSONAL_DATA_DB_HOST")).getD (chars "localhost"))
        (env (chars "PERSONAL_DATA_DB_NAME"))
        ((env (chars "PERSONAL_DATA_DB_USERNAME")).getD (chars "root"))
        ((env (chars "PERSONAL_DATA_DB_PASSWORD")).getD []) :=
  ⟨rfl, rfl, rfl, rfl, rfl⟩

set_option maxRecDepth 8000 in
/-- C9: main prints for the scenario row exactly the raw semicolon-joined
line, and that line is not a fixed point of the redactor, so the printed
output is unredacted. -/
theorem main_prints_raw_row :
    mainLines [annRow] = [chars "name=Ann; email=ann@x.com; phone=555-1234; ssn=000-00-0000; password=pw1; ip=1.2.3.4; last_login=2024-01-01; user_agent=curl/8;"]
    ∧ filter_datum PII_FIELDS (chars "***") (formatRow annRow) ';' ≠ formatRow annRow := by
  refine ⟨by decide, by decide⟩

/-- C10: the unanchored pattern lets the watched field mail rewrite inside
the unrelated key email, producing e plus mail=***; instead of leaving the
message unchanged. -/
theorem filter_datum_matches_inside_key :
    filter_datum [chars "mail"] (chars "***") (chars "email=x;") ';'
      = chars "e" ++ chars "mail=***;"
    ∧ filter_datum [chars "mail"] (chars "***") (chars "email=x;") ';' ≠ chars "email=x;" := by
  refine ⟨by decide, by decide⟩
